import Mathlib

/-!
Verification development for the Akumuli persistence/codec core.

Shallow embedding of `src/libakumuli/compression.h` (the V1/V2 byte-stream
writers and readers and the Delta/ZigZag/RLE combinators) and of
`src/libakumuli/storage_engine/blockstore.cpp` (BlockCache, MemStore,
FixedSizeFileStorage).

Machine integers are modelled as natural-number residues: a C++ `int64_t`
or `u64` value is represented by its two's-complement residue in
`[0, 2^64)`, with arithmetic wrapped by an explicit `% 2^64`; signed
comparisons and arithmetic shifts are spelled out on the residues.
-/

/-- `2^64`, the modulus of 64-bit machine arithmetic. -/
def W64 : Nat := 2 ^ 64

/-- `2^63`; a 64-bit residue `v` represents a negative `int64_t` iff `M63 ≤ v`. -/
def M63 : Nat := 2 ^ 63

/-- Arithmetic shift right by 7 of an `int64_t` given as a two's-complement
residue (`value >>= 7` in `Base128Int::put`): non-negative values divide by
128, negative values keep their sign-extension bits. -/
def sar7 (v : Nat) : Nat :=
  if v < M63 then v / 128 else v / 128 + (W64 - 2 ^ 57)

/-- Arithmetic shift right by 1 of an `int64_t` residue (`n >> 1` in
`ZigZagStreamReader::next`). -/
def sar1 (v : Nat) : Nat :=
  if v < M63 then v / 2 else v / 2 + M63

/-- `Base128Int<int64_t>::put`: the emit loop of the V1 base-128 encoder.
The fuel is the number of bytes left in the buffer (`end - pos`); the loop
writes the low 7 bits, arithmetically shifts by 7, and sets the
continuation bit `0x80` iff the shifted value is nonzero.  Returns the
emitted bytes, or `none` when the buffer ends mid-value (the C++ code then
returns `begin` and the stream writer throws `StreamOutOfBounds`). -/
def b128putLoop : Nat → Nat → Option (List Nat)
  | _, 0 => none
  | v, fuel + 1 =>
    if sar7 v ≠ 0 then (b128putLoop (sar7 v) fuel).map (fun bs => (v % 128 + 128) :: bs)
    else some [v % 128]

/-- `Base128StreamWriter::put` acting on the stream state: `out` is the list
of bytes written so far and `space` the bytes left before `end_`. -/
def ssPut (v : Nat) (out : List Nat) (space : Nat) : Option (List Nat × Nat) :=
  match b128putLoop v space with
  | none => none
  | some bs => some (out ++ bs, space - bs.length)

/-- `Base128Int<int64_t>::get`: the decode loop of the V1 base-128 reader.
`acc` and `cnt` are the accumulator and shift count; each byte contributes
its low 7 bits shifted left by `cnt` (an `int64_t` shift, hence the
`% W64`), OR-ed into the accumulator; a clear `0x80` bit ends the value. -/
def b128getLoop : List Nat → Nat → Nat → Option (Nat × List Nat)
  | [], _, _ => none
  | b :: rest, acc, cnt =>
    if b % 256 < 128 then some (acc ||| b % 128 * 2 ^ cnt % W64, rest)
    else b128getLoop rest (acc ||| b % 128 * 2 ^ cnt % W64) (cnt + 7)

/-- `Base128StreamReader::next<int64_t>`. -/
def b128get (inp : List Nat) : Option (Nat × List Nat) :=
  b128getLoop inp 0 0

/-- `ZigZagStreamWriter<.., int64_t>::put`: `(value << 1) ^ (value >> 63)`
on `int64_t`, expressed on two's-complement residues. -/
def zigzag64 (v : Nat) : Nat :=
  2 * v % W64 ^^^ (if v < M63 then 0 else W64 - 1)

/-- `ZigZagStreamReader<.., int64_t>::next`: `(n >> 1) ^ (-(n & 1))` on
`int64_t` residues. -/
def unzigzag64 (n : Nat) : Nat :=
  sar1 n ^^^ (if n % 2 = 1 then W64 - 1 else 0)

/-- Writer-side state of `RLEStreamWriter<int64_t>` together with the
underlying `Base128StreamWriter`: the pending run `(rPrev, reps)` and the
stream's output/space. -/
structure RSt where
  rPrev : Nat
  reps : Nat
  out : List Nat
  space : Nat
deriving DecidableEq, Repr

/-- `RLEStreamWriter<int64_t>::put`.  On a value change a nonzero pending
run is flushed as the pair `(reps, prev)`; the repetition counter is an
`int64_t` and increments modulo `2^64`. -/
def rlePut (z : Nat) (st : RSt) : Option RSt :=
  if z ≠ st.rPrev then
    if st.reps ≠ 0 then
      match ssPut st.reps st.out st.space with
      | none => none
      | some (o1, s1) =>
        match ssPut st.rPrev o1 s1 with
        | none => none
        | some (o2, s2) => some ⟨z, 1, o2, s2⟩
    else some ⟨z, 1, st.out, st.space⟩
  else some ⟨st.rPrev, (st.reps + 1) % W64, st.out, st.space⟩

/-- `RLEStreamWriter<int64_t>::commit`: emit the pending `(reps, prev)`
pair (the base writer's own `commit` is a no-op) and return the bytes. -/
def rleCommit (st : RSt) : Option (List Nat) :=
  match ssPut st.reps st.out st.space with
  | none => none
  | some (o1, s1) =>
    match ssPut st.rPrev o1 s1 with
    | none => none
    | some (o2, _) => some o2

/-- Feeding a list of already zigzag-delta-encoded values to the RLE layer. -/
def rlePuts : List Nat → RSt → Option RSt
  | [], st => some st
  | z :: zs, st =>
    match rlePut z st with
    | none => none
    | some st' => rlePuts zs st'

/-- The composed `DeltaRLEWriter` put loop
(`DeltaStreamWriter` over `ZigZagStreamWriter` over `RLEStreamWriter`):
`p` is the delta writer's `prev_` (an `int64_t` residue); each input is
delta-encoded, zigzag-encoded and handed to the RLE layer. -/
def dzrPuts : List Nat → Nat → RSt → Option RSt
  | [], _, st => some st
  | x :: xs, p, st =>
    match rlePut (zigzag64 ((x + W64 - p) % W64)) st with
    | none => none
    | some st' => dzrPuts xs x st'

/-- Writing a whole `int64_t` sequence through the canonical pipeline
Delta → ZigZag → RLE → Base128 (V1) into a buffer with `space` free bytes,
followed by `commit`.  Returns the produced byte stream, or `none` if any
write ran out of buffer. -/
def encodeC1 (xs : List Nat) (space : Nat) : Option (List Nat) :=
  match dzrPuts xs 0 ⟨0, 0, [], space⟩ with
  | none => none
  | some st => rleCommit st

/-- Reader-side state of `RLEStreamReader<int64_t>` over a
`Base128StreamReader`: remaining input bytes and the `(prev, reps)` pair. -/
structure DSt where
  inp : List Nat
  rPrev : Nat
  reps : Nat
deriving DecidableEq, Repr

/-- `RLEStreamReader<int64_t>::next`: lazily refill `(reps, prev)` from the
stream, decrement `reps` (an `int64_t`, wrapping), and return `prev`. -/
def rleNext (st : DSt) : Option (Nat × DSt) :=
  if st.reps = 0 then
    match b128get st.inp with
    | none => none
    | some (r, in1) =>
      match b128get in1 with
      | none => none
      | some (p, in2) => some (p, ⟨in2, p, (r + (W64 - 1)) % W64⟩)
  else some (st.rPrev, ⟨st.inp, st.rPrev, (st.reps + (W64 - 1)) % W64⟩)

/-- `n` successive calls of the RLE reader. -/
def rleNexts : Nat → DSt → Option (List Nat × DSt)
  | 0, st => some ([], st)
  | n + 1, st =>
    match rleNext st with
    | none => none
    | some (z, st') =>
      match rleNexts n st' with
      | none => none
      | some (zs, st'') => some (z :: zs, st'')

/-- The composed `DeltaRLEReader` next loop: `p` is the delta reader's
`prev_`; each RLE value is unzigzagged and added (mod `2^64`) to `p`. -/
def dzrNexts : Nat → Nat → DSt → Option (List Nat × DSt)
  | 0, _, st => some ([], st)
  | n + 1, p, st =>
    match rleNext st with
    | none => none
    | some (z, st') =>
      match dzrNexts n ((p + unzigzag64 z) % W64) st' with
      | none => none
      | some (vs, st'') => some ((p + unzigzag64 z) % W64 :: vs, st'')

/-- Reading `n` values back through the inverse pipeline
Base128 → RLE → ZigZag → Delta from a byte stream. -/
def decodeC1 (bytes : List Nat) (n : Nat) : Option (List Nat) :=
  match dzrNexts n 0 ⟨bytes, 0, 0⟩ with
  | none => none
  | some (vs, _) => some vs

/-- Specification-side run decomposition used to reason about the RLE
writer: `runsFrom p r zs` is the list of `(count, value)` pairs the writer
emits (flushes plus the final commit) when its pending run is `(p, r)` and
the remaining input is `zs`.  Counters wrap exactly like the writer's. -/
def runsFrom : Nat → Nat → List Nat → List (Nat × Nat)
  | p, r, [] => [(r, p)]
  | p, r, z :: zs =>
    if z = p then runsFrom p ((r + 1) % W64) zs
    else if r ≠ 0 then (r, p) :: runsFrom z 1 zs
    else runsFrom z 1 zs

/-- Emitting a list of `(count, value)` pairs through the base-128 writer. -/
def encodePairs : List (Nat × Nat) → List Nat → Nat → Option (List Nat)
  | [], out, _ => some out
  | (c, v) :: ps, out, sp =>
    match ssPut c out sp with
    | none => none
    | some (o1, s1) =>
      match ssPut v o1 s1 with
      | none => none
      | some (o2, s2) => encodePairs ps o2 s2

/-- The value sequence represented by a list of `(count, value)` pairs. -/
def expandPairs : List (Nat × Nat) → List Nat
  | [] => []
  | (c, v) :: ps => List.replicate c v ++ expandPairs ps

/-- The zigzagged delta sequence of `xs` relative to a previous value `p`. -/
def zdList : Nat → List Nat → List Nat
  | _, [] => []
  | p, x :: xs => zigzag64 ((x + W64 - p) % W64) :: zdList x xs

/-- The reader-side inverse of `zdList`: unzigzag and accumulate deltas. -/
def zdInv : Nat → List Nat → List Nat
  | _, [] => []
  | p, z :: zs => (p + unzigzag64 z) % W64 :: zdInv ((p + unzigzag64 z) % W64) zs

/-!
### Base128StreamWriterV2 (compression.h, V2 block-prefix bitstream)

The buffer is modelled as a list of bytes (the claims about the V2 writer
start from a fresh, zero-initialised buffer); `List.set` past the end is a
no-op, which is only ever exercised by out-of-buffer C++ writes that the
concrete inputs below never perform.
-/

/-- State of `Base128StreamWriterV2`: output buffer, cursor `pos_`, the
in-progress control byte `ctrl_` and its index `ctrl_index_`. -/
structure V2St where
  buf : List Nat
  pos : Nat
  ctrl : Nat
  ctrlIndex : Nat
deriving DecidableEq, Repr

/-- A fresh V2 writer over a zeroed buffer of `size` bytes
(`pos_ = 1`, `ctrl_ = 0`, `ctrl_index_ = 0`). -/
def v2new (size : Nat) : V2St := ⟨List.replicate size 0, 1, 0, 0⟩

/-- `curr_block_index()`: offset of the cursor inside the current 8-byte
payload group. -/
def v2blockIndex (st : V2St) : Nat := st.pos - (st.ctrlIndex + 1)

/-- `curr_block_cap()`: payload bytes left in the current group. -/
def v2blockCap (st : V2St) : Nat := 8 - v2blockIndex st

/-- Bit length of a 64-bit value (position of the highest set bit plus
one); `64 - bitLen64 v` is `__builtin_clzl(v)` for nonzero `v < 2^64`. -/
def bitLen64 (v : Nat) : Nat :=
  (List.range 64).foldl (fun acc i => if 2 ^ i ≤ v then i + 1 else acc) 0

/-- Number of payload bytes for a value: `(64 - clzl(v)/8*8)/8`, with the
`v = 0` case pinned to one byte exactly as in `put`. -/
def v2nbytes (v : Nat) : Nat :=
  let lz := if v = 0 then 56 else 64 - bitLen64 v
  (64 - lz / 8 * 8) / 8

/-- `move_to_next_block()`: write the control byte, open the next 9-byte
group; throws (`none`) when `ctrl_index_` passes the buffer size. -/
def v2moveNext (st : V2St) : Option V2St :=
  let buf := st.buf.set st.ctrlIndex st.ctrl
  let ci := st.ctrlIndex + 9
  if ci > st.buf.length then none
  else some ⟨buf, ci + 1, 0, ci⟩

/-- The byte-emitting loop of `Base128StreamWriterV2::put`: write `nb`
little-endian bytes of `v` at the cursor. -/
def v2writeBytes : Nat → Nat → V2St → V2St
  | _, 0, st => st
  | v, nb + 1, st =>
    v2writeBytes (v / 256) nb ⟨st.buf.set st.pos (v % 256), st.pos + 1, st.ctrl, st.ctrlIndex⟩

/-- `Base128StreamWriterV2::put` for an unsigned 64-bit value: move to the
next group if the value does not fit, write its bytes, and mark the last
written payload byte in the control byte (`ctrl_` is an `unsigned char`). -/
def v2put (v : Nat) (st : V2St) : Option V2St :=
  let nb := v2nbytes (v % W64)
  match (if nb > v2blockCap st then v2moveNext st else some st) with
  | none => none
  | some st1 =>
    let st2 := v2writeBytes (v % W64) nb st1
    some ⟨st2.buf, st2.pos, (st2.ctrl ||| 1 <<< (v2blockIndex st2 - 1)) % 256, st2.ctrlIndex⟩

/-- `Base128StreamWriterV2::commit`: store the control byte of the
in-progress group. -/
def v2commit (st : V2St) : V2St :=
  ⟨st.buf.set st.ctrlIndex st.ctrl, st.pos, st.ctrl, st.ctrlIndex⟩

/-- `Base128StreamWriterV2::put_raw(uint32_t)`: the guard checks four free
bytes, but the store goes through a `uint64_t*`, writing the four value
bytes followed by four zero bytes (the `uint32_t` zero-extended to 64
bits), while the cursor advances by only four. -/
def v2putRaw32 (v : Nat) (st : V2St) : Option V2St :=
  if st.pos + 4 > st.buf.length then none
  else
    let w := v % 2 ^ 32
    let b := ((((((((st.buf.set st.pos (w % 256)).set
      (st.pos + 1) (w / 256 % 256)).set
      (st.pos + 2) (w / 65536 % 256)).set
      (st.pos + 3) (w / 16777216 % 256)).set
      (st.pos + 4) 0).set
      (st.pos + 5) 0).set
      (st.pos + 6) 0).set
      (st.pos + 7) 0)
    some ⟨b, st.pos + 4, st.ctrl, st.ctrlIndex⟩

/-- The concrete V2 write sequence of scenario E2: put `0x01`, `0x0100`,
`0x010000` into a fresh 16-byte buffer and commit. -/
def c6group : Option V2St :=
  match v2put 1 (v2new 16) with
  | none => none
  | some s1 =>
    match v2put 256 s1 with
    | none => none
    | some s2 =>
      match v2put 65536 s2 with
      | none => none
      | some s3 => some (v2commit s3)

/-!
### MemStore (blockstore.cpp)

The field declarations live in `blockstore.h`, which is not part of the
sources; following the spec (&sect;4.8: a contiguous byte buffer and "a
monotonically increasing `write_pos`"), `write_pos_` and `removed_pos_`
are modelled from the spec as unbounded counters.  `AKU_BLOCK_SIZE = 4096`
and `MEMSTORE_BASE = 619` are taken from the sources.
-/

/-- MemStore state.  `buffer` is the byte vector; `writePos` counts
appended blocks; `removedPos` is the remove watermark.  Modelled from the
spec: the integer widths of `write_pos_`/`removed_pos_` (declared in the
missing `blockstore.h`) are taken as unbounded, per the spec's
"monotonically increasing `write_pos`". -/
structure MemSt where
  buffer : List Nat
  writePos : Nat
  removedPos : Nat
deriving DecidableEq, Repr

/-- `MemStore::append_block`: copy the 4096 block bytes into the buffer,
bump `write_pos_`, and return the address offset by `MEMSTORE_BASE = 619`
(the returned `LogicAddr` is a `u64`, hence the `% W64`). -/
def memAppend (st : MemSt) (data : List Nat) : MemSt × Nat :=
  (⟨st.buffer ++ data, st.writePos + 1, st.removedPos⟩, (st.writePos + 619) % W64)

/-- `MemStore::read_block`: subtract `MEMSTORE_BASE` with unsigned (u64)
wraparound, compute the page offset as a `u32`
(`u32 offset = static_cast<u32>(AKU_BLOCK_SIZE * addr)`), bounds-check it
(in `u32` arithmetic) against the buffer, check the remove watermark, and
copy 4096 bytes.  Returns just the copied bytes (the returned `Block` is
tagged with the requested address). -/
def memRead (st : MemSt) (addr : Nat) : Option (List Nat) :=
  let a := (addr + W64 - 619) % W64
  let offset := 4096 * a % 2 ^ 32
  if st.buffer.length < (offset + 4096) % 2 ^ 32 then none
  else if a < st.removedPos then none
  else some ((st.buffer.drop offset).take 4096)

/-- `MemStore::exists`: subtract `MEMSTORE_BASE` with u64 wraparound and
compare against `write_pos_`. -/
def memExists (st : MemSt) (addr : Nat) : Bool :=
  (addr + W64 - 619) % W64 < st.writePos

/-!
### BlockCache (blockstore.cpp)
-/

/-- A cached block: its logical address together with the `use_count()` of
the `shared_ptr` occupying the slot (the code's proxy for access
frequency).  Taking local copies `p1`/`p2` inside `insert` raises both
counts equally, so comparing the stored counts is faithful. -/
structure CBlock where
  addr : Nat
  rc : Nat
deriving DecidableEq, Repr

/-- BlockCache state: the `2^bits`-slot vector of shared pointers. -/
structure CacheSt where
  slots : List (Option CBlock)
  bits : Nat
deriving DecidableEq, Repr

/-- `BlockCache::BlockCache(Nbits)`: `2^Nbits` empty slots. -/
def mkBlockCache (nbits : Nat) : CacheSt := ⟨List.replicate (2 ^ nbits) none, nbits⟩

/-- The inclusive upper bound of the random slot distribution: the
constructor builds `uniform_int_distribution(0, 1 << Nbits)`, whose
support is the closed interval `[0, 2^Nbits]`. -/
def distUpper (nbits : Nat) : Nat := 2 ^ nbits

/-- `hash32(value, bits, seed)`: `((2^32 - 1) * value + seed)` in `u64`
arithmetic, shifted right by `64 - bits`. -/
def hash32 (value bits seed : Nat) : Nat :=
  (((2 ^ 32 - 1) * value + seed) % W64) >>> (64 - bits)

/-- `hash(addr, bits)`: the two 32-bit halves hashed with seeds 277 and
337 and XOR-ed. -/
def cacheHash (addr bits : Nat) : Nat :=
  hash32 (addr % 2 ^ 32) bits 277 ^^^ hash32 (addr / 2 ^ 32 % 2 ^ 32) bits 337

/-- `BlockCache::probe`: 0 = miss (slot empty), 2 = hit (same address),
1 = collision (occupied by another address). -/
def probeC (st : CacheSt) (addr : Nat) : Nat :=
  match st.slots.getD (cacheHash addr st.bits) none with
  | none => 0
  | some b => if b.addr = addr then 2 else 1

/-- `BlockCache::insert`, with the two random draws `h1`, `h2` passed in
explicitly.  `none` models a thrown `std::out_of_range` from
`std::vector::at`.  Note the branch structure of the source: the
two-random-slot eviction runs when `probe` returns 0 (miss), and a
collision (`probe = 1`) falls through directly to the final store. -/
def insertC (st : CacheSt) (b : CBlock) (h1 h2 : Nat) : Option CacheSt :=
  let pr := probeC st b.addr
  if pr = 2 then some st
  else
    match (if pr = 0 then
            if st.slots.length ≤ h1 then none
            else if st.slots.length ≤ h2 then none
            else
              match st.slots.getD h1 none, st.slots.getD h2 none with
              | some p1, some p2 =>
                if p2.rc < p1.rc then some (CacheSt.mk (st.slots.set h2 none) st.bits)
                else if p1.rc < p2.rc then some (CacheSt.mk (st.slots.set h1 none) st.bits)
                else if p1.addr < p2.addr then some (CacheSt.mk (st.slots.set h1 none) st.bits)
                else some (CacheSt.mk (st.slots.set h2 none) st.bits)
              | _, _ => some st
          else some st) with
    | none => none
    | some st1 =>
      let h := cacheHash b.addr st.bits
      if st1.slots.length ≤ h then none
      else some (CacheSt.mk (st1.slots.set h (some b)) st.bits)

/-- `BlockCache::loockup`: fetch the hashed slot and dereference it with
`p->get_addr()` before any null check.  The outer `none` marks the null
dereference (undefined behaviour / crash) that happens whenever the slot
is empty; otherwise the returned inner option is the (possibly reset)
shared pointer. -/
def loockup (st : CacheSt) (addr : Nat) : Option (Option CBlock) :=
  match st.slots.getD (cacheHash addr st.bits) none with
  | none => none
  | some b => some (if b.addr = addr then some b else none)

/-!
### FixedSizeFileStorage (blockstore.cpp)

`MetaVolume` and `Volume` are implemented outside the given sources; they
are modelled from the spec (&sect;3, &sect;6: per-volume records holding
`capacity`, `nblocks`, `generation`, with durable per-field setters, and
raw volumes of `capacity` pages of 4096 bytes).  Generations are modelled
as unbounded counters, per the spec's "generation strictly increases each
reset".  The `advance_volume` / `read_block` control flow is taken
directly from `blockstore.cpp`.
-/

/-- Modelled from the spec: one `MetaVolume` record — `capacity`,
`nblocks`, `generation` for a volume (the MetaVolume implementation is not
part of the given sources). -/
structure VolRec where
  capacity : Nat
  nblocks : Nat
  generation : Nat
deriving DecidableEq, Repr

/-- FixedSizeFileStorage state for the generation-trace model (claim C3):
the meta records, the current volume index and the cached current
generation. -/
structure FileSt where
  meta : List VolRec
  currentVolume : Nat
  currentGen : Nat
deriving DecidableEq, Repr

/-- The index of the volume `advance_volume` moves to:
`(current_volume_ + 1) % volumes_.size()`. -/
def destIx (st : FileSt) : Nat := (st.currentVolume + 1) % st.meta.length

/-- `FixedSizeFileStorage::advance_volume`: step to the next volume, load
its generation; if it is non-empty, bump the generation by the volume
count, persist it and reset `nblocks` to 0. -/
def advanceVolume (st : FileSt) : FileSt :=
  if (st.meta.getD (destIx st) ⟨0, 0, 0⟩).nblocks ≠ 0 then
    ⟨st.meta.set (destIx st)
        ⟨(st.meta.getD (destIx st) ⟨0, 0, 0⟩).capacity, 0,
          (st.meta.getD (destIx st) ⟨0, 0, 0⟩).generation + st.meta.length⟩,
      destIx st,
      (st.meta.getD (destIx st) ⟨0, 0, 0⟩).generation + st.meta.length⟩
  else ⟨st.meta, destIx st, (st.meta.getD (destIx st) ⟨0, 0, 0⟩).generation⟩

/-- Events affecting the meta volume between advances: `advance` is
`advance_volume`; `fill n` abstracts the `meta_->set_nblocks(current, n)`
updates performed by successful appends to the current volume (appends
never touch generations). -/
inductive FStep where
  | advance : FStep
  | fill : Nat → FStep
deriving DecidableEq, Repr

/-- Apply one event to the store state. -/
def applyStep : FStep → FileSt → FileSt
  | .advance, st => advanceVolume st
  | .fill n, st =>
    ⟨st.meta.set st.currentVolume
        ⟨(st.meta.getD st.currentVolume ⟨0, 0, 0⟩).capacity, n,
          (st.meta.getD st.currentVolume ⟨0, 0, 0⟩).generation⟩,
      st.currentVolume, st.currentGen⟩

/-- Run a trace of events. -/
def runSteps : List FStep → FileSt → FileSt
  | [], st => st
  | s :: tr, st => runSteps tr (applyStep s st)

/-- Number of times a trace recycles volume `i`, i.e. advances into it
while it is non-empty (the branch of `advance_volume` that bumps the
stored generation). -/
def recycles (i : Nat) : List FStep → FileSt → Nat
  | [], _ => 0
  | s :: tr, st =>
    (match s with
     | .advance =>
       if destIx st = i ∧ (st.meta.getD (destIx st) ⟨0, 0, 0⟩).nblocks ≠ 0 then 1 else 0
     | .fill _ => 0) + recycles i tr (applyStep s st)

/-- Stored generation of volume `i`. -/
def genOf (i : Nat) (st : FileSt) : Nat := (st.meta.getD i ⟨0, 0, 0⟩).generation

/-- Status codes relevant to `read_block`. -/
inductive AkuRc where
  | success : AkuRc
  | badArg : AkuRc
  | ioError : AkuRc
deriving DecidableEq, Repr

/-- FixedSizeFileStorage state with fallible meta records (claim C7): a
`none` record models a meta-volume whose read fails. -/
structure FileStM where
  meta : List (Option VolRec)
  currentVolume : Nat
  currentGen : Nat
deriving DecidableEq, Repr

/-- `FixedSizeFileStorage::read_block`: split the address into
`(gen, slot)` with 32-bit extractors, locate the volume as `gen mod V`,
fail `BadArg` if the meta read fails, the stored generation differs, or
the slot is past `nblocks`; otherwise read the page from the volume
(modelled from the spec as a list of pages; a failed volume read surfaces
its status). -/
def readBlockF (st : FileStM) (vols : List (List (List Nat))) (addr : Nat) :
    AkuRc × Option (List Nat) :=
  match st.meta.getD (addr >>> 32 % 2 ^ 32 % st.meta.length) none with
  | none => (.badArg, none)
  | some r1 =>
    if r1.generation ≠ addr >>> 32 % 2 ^ 32 ∨ r1.nblocks ≤ addr % 2 ^ 32 then
      (.badArg, none)
    else
      match (vols.getD (addr >>> 32 % 2 ^ 32 % st.meta.length) []).get? (addr % 2 ^ 32) with
      | none => (.ioError, none)
      | some bytes => (.success, some bytes)

/-- `advance_volume` over fallible meta records; `none` models the
`AKU_PANIC` taken when the destination's meta record cannot be read. -/
def advanceVolumeM (st : FileStM) : Option FileStM :=
  match st.meta.getD ((st.currentVolume + 1) % st.meta.length) none with
  | none => none
  | some r1 =>
    if r1.nblocks ≠ 0 then
      some ⟨st.meta.set ((st.currentVolume + 1) % st.meta.length)
          (some ⟨r1.capacity, 0, r1.generation + st.meta.length⟩),
        (st.currentVolume + 1) % st.meta.length, r1.generation + st.meta.length⟩
    else some ⟨st.meta, (st.currentVolume + 1) % st.meta.length, r1.generation⟩


/-!
## Theorems

Helper lemmas first, then one theorem per claim (with witnesses and
counterexamples where required).
-/

theorem listGetD_set_self {α : Type} (l : List α) (i : Nat) (a d : α) (h : i < l.length) :
    (l.set i a).getD i d = a := by
  simp [List.getD_eq_getElem?_getD, List.getElem?_set_self h]

theorem listGetD_set_ne {α : Type} (l : List α) (i j : Nat) (a d : α) (h : i ≠ j) :
    (l.set i a).getD j d = l.getD j d := by
  simp [List.getD_eq_getElem?_getD, List.getElem?_set_ne h]

theorem listGetD_some_lt {α : Type} (l : List (Option α)) (i : Nat) (a : α)
    (h : l.getD i none = some a) : i < l.length := by
  by_contra hge
  rw [List.getD_eq_getElem?_getD, List.getElem?_eq_none (by omega)] at h
  simp at h

/-- C2: after a single append of a 4096-byte block (receiving address
619), `MemStore::read_block` at the never-appended address `619 + 2^20`
nevertheless succeeds and returns the bytes of block 0: the page offset
`4096 * 2^20` is truncated to 0 by the `u32` cast, so the read does not
fail with a not-found error and returns a different block's bytes. -/
theorem c2_read_wrong_block :
    (memAppend ⟨[], 0, 0⟩ (List.replicate 4096 7)).2 = 619 ∧
    memRead (memAppend ⟨[], 0, 0⟩ (List.replicate 4096 7)).1 (619 + 2 ^ 20) =
      some (List.replicate 4096 7) := by
  constructor
  · decide
  · show memRead ⟨[] ++ List.replicate 4096 7, 0 + 1, 0⟩ (619 + 2 ^ 20) =
      some (List.replicate 4096 7)
    unfold memRead
    norm_num [W64]

/-- C5: `BlockCache::loockup` on an empty hashed slot dereferences the
null shared pointer (`p->get_addr()` before any null check); the model
marks this undefined behaviour as `none`, whereas the claim requires a
safely returned null reference. -/
theorem c5_loockup_null_deref : loockup (mkBlockCache 2) 7 = none := by
  decide

/-- C6 (amended): writing `0x01`, `0x0100`, `0x010000` through the V2
writer into a fresh buffer and committing fills a single 9-byte group with
control byte `0b00100101` (bits 0, 2 and 5 set — the last-byte positions
of the three values) and payload `[01, 00, 01, 00, 00, 01, 0, 0]`. -/
theorem c6_v2_group :
    c6group.map (fun st => st.buf.take 9) =
      some [0b00100101, 1, 0, 1, 0, 0, 1, 0, 0] := by
  decide

/-- C6 counterexample: the group written for `0x01`, `0x0100`, `0x010000`
does not carry the claimed control byte `0b00101001`; the control byte is
`0b00100101` (the three integers end at payload indices 0, 2 and 5, not
0, 3 and 5). -/
theorem c6_counterexample :
    c6group.map (fun st => st.buf.take 9) ≠
      some [0b00101001, 1, 0, 1, 0, 0, 1, 0, 0] := by
  decide

/-- C8: `put_raw(uint32_t)` on a V2 writer over a 16-byte buffer filled
with `0x09` stores through a `uint64_t*`: besides the four value bytes at
the cursor it zeroes the four following bytes (indices 5-8), while the
cursor advances by only 4 — contradicting the claim that all bytes beyond
the four written ones are unchanged. -/
theorem c8_putraw_clobbers :
    v2putRaw32 5 ⟨List.replicate 16 9, 1, 0, 0⟩ =
      some ⟨[9, 5, 0, 0, 0, 0, 0, 0, 0, 9, 9, 9, 9, 9, 9, 9], 5, 0, 0⟩ := by
  decide

/-- C10: the slot distribution is `uniform_int_distribution(0, 1 << Nbits)`
with an inclusive upper bound, so the draw `2^Nbits` is possible; with
`Nbits = 1` a miss-path insert that draws `h1 = 2` calls
`std::vector::at(2)` on a 2-slot vector and throws (modelled as `none`),
refuting the claim that every drawn index is below `2^Nbits` and no insert
can throw. -/
theorem c10_insert_throws :
    2 ≤ distUpper 1 ∧ insertC (mkBlockCache 1) ⟨3, 1⟩ 2 0 = none := by
  decide

/-- C4 counterexample: a cache whose slot 0 is empty for address 1
(`probe` reports a miss), with occupied slots 1 and 2 drawn as the two
random slots: `insert` evicts the less-referenced occupant of slot 1 —
although the claim states that on a miss the block is installed with no
eviction. -/
theorem c4_counterexample :
    probeC ⟨[none, some ⟨5, 1⟩, some ⟨9, 2⟩, none], 2⟩ 1 = 0 ∧
    insertC ⟨[none, some ⟨5, 1⟩, some ⟨9, 2⟩, none], 2⟩ ⟨1, 1⟩ 1 2 =
      some ⟨[some ⟨1, 1⟩, none, some ⟨9, 2⟩, none], 2⟩ := by
  decide

/-- C9: every address returned by `MemStore::append_block` is at least
`MEMSTORE_BASE = 619`, and `exists(addr)` is false for every `addr` below
the base: the unsigned subtraction `addr - MEMSTORE_BASE` wraps to a value
of at least `2^64 - 619`, which can never be below `write_pos_`.  The
hypothesis keeps the (spec-modelled, unbounded) block counter inside the
range where the returned `u64` address does not wrap. -/
theorem c9_base_offset (st : MemSt) (data : List Nat) (addr : Nat)
    (hw : st.writePos + 619 < W64) :
    619 ≤ (memAppend st data).2 ∧ (addr < 619 → memExists st addr = false) := by
  have hW : W64 = 2 ^ 64 := rfl
  constructor
  · show 619 ≤ (st.writePos + 619) % W64
    rw [Nat.mod_eq_of_lt hw]
    omega
  · intro ha
    show decide ((addr + W64 - 619) % W64 < st.writePos) = false
    rw [decide_eq_false_iff_not]
    rw [Nat.mod_eq_of_lt (by omega)]
    omega

theorem c9_base_offset_witness :
    619 ≤ (memAppend ⟨[], 0, 0⟩ []).2 ∧ memExists ⟨[], 0, 0⟩ 3 = false :=
  ⟨(c9_base_offset ⟨[], 0, 0⟩ [] 3 (by decide)).1,
   (c9_base_offset ⟨[], 0, 0⟩ [] 3 (by decide)).2 (by decide)⟩

theorem applyStep_meta_length (s : FStep) (st : FileSt) :
    (applyStep s st).meta.length = st.meta.length := by
  cases s with
  | advance =>
    show (advanceVolume st).meta.length = st.meta.length
    unfold advanceVolume
    split
    · simp
    · rfl
  | fill n =>
    show (st.meta.set st.currentVolume _).length = st.meta.length
    simp

theorem genOf_advance_self (st : FileSt) (hlen : 0 < st.meta.length)
    (hne : (st.meta.getD (destIx st) ⟨0, 0, 0⟩).nblocks ≠ 0) :
    genOf (destIx st) (advanceVolume st) = genOf (destIx st) st + st.meta.length := by
  have hd : destIx st < st.meta.length := Nat.mod_lt _ hlen
  unfold advanceVolume genOf
  rw [if_pos hne]
  rw [listGetD_set_self _ _ _ _ hd]

theorem genOf_advance (st : FileSt) (i : Nat) (hi : i < st.meta.length) :
    genOf i (advanceVolume st) =
      genOf i st +
        (if destIx st = i ∧ (st.meta.getD (destIx st) ⟨0, 0, 0⟩).nblocks ≠ 0 then
          st.meta.length
        else 0) := by
  by_cases hd : destIx st = i
  · by_cases hne : (st.meta.getD (destIx st) ⟨0, 0, 0⟩).nblocks ≠ 0
    · rw [if_pos ⟨hd, hne⟩, ← hd]
      exact genOf_advance_self st (by omega) hne
    · rw [if_neg (fun hc => hne hc.2)]
      unfold advanceVolume genOf
      rw [if_neg hne]
      dsimp only
      omega
  · rw [if_neg (fun hc => hd hc.1)]
    unfold advanceVolume genOf
    split
    · dsimp only
      rw [listGetD_set_ne _ _ _ _ _ hd]
      omega
    · dsimp only
      omega

theorem genOf_fill (n : Nat) (st : FileSt) (i : Nat) (hi : i < st.meta.length) :
    genOf i (applyStep (.fill n) st) = genOf i st := by
  show genOf i ⟨st.meta.set st.currentVolume _, _, _⟩ = genOf i st
  unfold genOf
  by_cases hc : st.currentVolume = i
  · subst hc
    rw [listGetD_set_self _ _ _ _ hi]
  · rw [listGetD_set_ne _ _ _ _ _ hc]

theorem recycles_cons (i : Nat) (s : FStep) (tr : List FStep) (st : FileSt) :
    recycles i (s :: tr) st =
      (match s with
       | .advance =>
         if destIx st = i ∧ (st.meta.getD (destIx st) ⟨0, 0, 0⟩).nblocks ≠ 0 then 1 else 0
       | .fill _ => 0) + recycles i tr (applyStep s st) := rfl

theorem genOf_runSteps (tr : List FStep) (st : FileSt) (i : Nat)
    (hi : i < st.meta.length) :
    genOf i (runSteps tr st) = genOf i st + recycles i tr st * st.meta.length := by
  induction tr generalizing st with
  | nil => simp [runSteps, recycles]
  | cons s tr ih =>
    have hlen := applyStep_meta_length s st
    show genOf i (runSteps tr (applyStep s st)) = _
    rw [ih (applyStep s st) (by rw [hlen]; exact hi)]
    rw [hlen, recycles_cons]
    cases s with
    | advance =>
      show genOf i (advanceVolume st) + _ = _
      rw [genOf_advance st i hi]
      by_cases hb : destIx st = i ∧ (st.meta.getD (destIx st) ⟨0, 0, 0⟩).nblocks ≠ 0
      · rw [if_pos hb, if_pos hb]
        ring
      · rw [if_neg hb, if_neg hb]
        ring
    | fill n =>
      rw [genOf_fill n st i hi]
      ring

/-- C3: `advance_volume` into a non-empty volume raises that volume's
stored generation by exactly the volume count `V`, and over any trace of
advances and appends in which volume `i` is recycled `K` times its final
generation is its initial one plus `K * V` — in particular after `K`
complete cycles that recycle every volume `K` times. -/
theorem c3_generation_monotonicity (st : FileSt) (tr : List FStep) (i K : Nat)
    (hi : i < st.meta.length) (hK : recycles i tr st = K) :
    ((st.meta.getD (destIx st) ⟨0, 0, 0⟩).nblocks ≠ 0 →
      genOf (destIx st) (advanceVolume st) = genOf (destIx st) st + st.meta.length) ∧
    genOf i (runSteps tr st) = genOf i st + K * st.meta.length := by
  constructor
  · intro hne
    exact genOf_advance_self st (by omega) hne
  · rw [← hK]
    exact genOf_runSteps tr st i hi

theorem c3_generation_monotonicity_witness :
    genOf 0 (runSteps [.advance, .fill 1, .advance, .fill 1]
        ⟨[⟨3, 1, 10⟩, ⟨3, 2, 11⟩], 0, 10⟩) =
      genOf 0 (⟨[⟨3, 1, 10⟩, ⟨3, 2, 11⟩], 0, 10⟩ : FileSt) +
        1 * (⟨[⟨3, 1, 10⟩, ⟨3, 2, 11⟩], 0, 10⟩ : FileSt).meta.length :=
  (c3_generation_monotonicity ⟨[⟨3, 1, 10⟩, ⟨3, 2, 11⟩], 0, 10⟩
    [.advance, .fill 1, .advance, .fill 1] 0 1 (by decide) (by decide)).2

/-- C7: `FixedSizeFileStorage::read_block` fails with `BadArg` and yields
no block whenever the meta record of the addressed volume cannot be read,
the stored generation differs from the address's generation, or the slot
is at or past the volume's `nblocks`; moreover, once `advance_volume` has
recycled a volume (non-empty destination), every address pointing at that
volume — in particular every address handed out for it before the recycle
— reads back as `BadArg`, since the recycled volume's `nblocks` is 0. -/
theorem c7_read_badarg (st : FileStM) (vols : List (List (List Nat))) (addr : Nat) :
    (st.meta.getD ((addr >>> 32 % 2 ^ 32) % st.meta.length) none = none →
      readBlockF st vols addr = (.badArg, none)) ∧
    (∀ r1, st.meta.getD ((addr >>> 32 % 2 ^ 32) % st.meta.length) none = some r1 →
      (r1.generation ≠ addr >>> 32 % 2 ^ 32 ∨ r1.nblocks ≤ addr % 2 ^ 32) →
      readBlockF st vols addr = (.badArg, none)) ∧
    (∀ st' r1, st.meta.getD ((st.currentVolume + 1) % st.meta.length) none = some r1 →
      r1.nblocks ≠ 0 → advanceVolumeM st = some st' →
      ∀ a2, (a2 >>> 32 % 2 ^ 32) % st.meta.length = (st.currentVolume + 1) % st.meta.length →
        readBlockF st' vols a2 = (.badArg, none)) := by
  refine ⟨?_, ?_, ?_⟩
  · intro h
    unfold readBlockF
    rw [h]
  · intro r1 h hcond
    unfold readBlockF
    rw [h]
    dsimp only
    rw [if_pos hcond]
  · intro st' r1 h hnb hadv a2 ha2
    have hcv : (st.currentVolume + 1) % st.meta.length < st.meta.length := by
      rcases Nat.eq_zero_or_pos st.meta.length with h0 | hpos
      · rw [List.length_eq_zero] at h0
        rw [h0] at h
        simp at h
      · exact Nat.mod_lt _ hpos
    have hst' : st' = ⟨st.meta.set ((st.currentVolume + 1) % st.meta.length)
        (some ⟨r1.capacity, 0, r1.generation + st.meta.length⟩),
        (st.currentVolume + 1) % st.meta.length, r1.generation + st.meta.length⟩ := by
      unfold advanceVolumeM at hadv
      rw [h] at hadv
      simp only [hnb, ne_eq, not_false_eq_true, if_true] at hadv
      exact (Option.some.inj hadv).symm
    subst hst'
    unfold readBlockF
    dsimp only
    rw [List.length_set, ha2]
    rw [listGetD_set_self _ _ _ _ hcv]
    dsimp only
    rw [if_pos (Or.inr (Nat.zero_le _))]

theorem c7_read_badarg_witness :
    readBlockF ⟨[some ⟨3, 1, 7⟩], 0, 7⟩ [] (8 * 2 ^ 32) = (.badArg, none) :=
  (c7_read_badarg ⟨[some ⟨3, 1, 7⟩], 0, 7⟩ [] (8 * 2 ^ 32)).2.1 ⟨3, 1, 7⟩
    (by decide) (Or.inl (by decide))

theorem cacheHash_lt (addr bits : Nat) (h : bits ≤ 64) : cacheHash addr bits < 2 ^ bits := by
  have key : ∀ v s : Nat, hash32 v bits s < 2 ^ bits := by
    intro v s
    unfold hash32
    rw [Nat.shiftRight_eq_div_pow]
    apply Nat.div_lt_of_lt_mul
    calc ((2 ^ 32 - 1) * v + s) % W64 < W64 := Nat.mod_lt _ (by decide)
      _ = 2 ^ (64 - bits) * 2 ^ bits := by
          rw [← Nat.pow_add]
          show 2 ^ 64 = _
          congr 1
          omega
  exact Nat.xor_lt_two_pow (key _ _) (key _ _)

theorem insertC_miss (st : CacheSt) (b : CBlock) (h1 h2 : Nat) (st' : CacheSt)
    (hh : cacheHash b.addr st.bits < st.slots.length)
    (h1b : h1 < st.slots.length) (h2b : h2 < st.slots.length)
    (hp0 : probeC st b.addr = 0)
    (hins : insertC st b h1 h2 = some st') :
    ∃ sl1 : List (Option CBlock),
      st' = ⟨sl1.set (cacheHash b.addr st.bits) (some b), st.bits⟩ ∧
      sl1.length = st.slots.length ∧
      ((sl1 = st.slots ∧
          (st.slots.getD h1 none = none ∨ st.slots.getD h2 none = none)) ∨
       (∃ p1 p2, st.slots.getD h1 none = some p1 ∧ st.slots.getD h2 none = some p2 ∧
         ((sl1 = st.slots.set h1 none ∧
             (p1.rc < p2.rc ∨ (p1.rc = p2.rc ∧ p1.addr < p2.addr))) ∨
          (sl1 = st.slots.set h2 none ∧
             (p2.rc < p1.rc ∨ (p1.rc = p2.rc ∧ ¬p1.addr < p2.addr)))))) := by
  unfold insertC at hins
  rw [if_neg (by rw [hp0]; decide)] at hins
  rw [if_pos hp0] at hins
  rw [if_neg (Nat.not_le.mpr h1b), if_neg (Nat.not_le.mpr h2b)] at hins
  rcases e1 : st.slots.getD h1 none with _ | p1 <;>
    rcases e2 : st.slots.getD h2 none with _ | p2 <;>
    rw [e1, e2] at hins <;> dsimp only at hins
  · rw [if_neg (Nat.not_le.mpr hh)] at hins
    exact ⟨st.slots, (Option.some.inj hins).symm, rfl, Or.inl ⟨rfl, Or.inl rfl⟩⟩
  · rw [if_neg (Nat.not_le.mpr hh)] at hins
    exact ⟨st.slots, (Option.some.inj hins).symm, rfl, Or.inl ⟨rfl, Or.inl rfl⟩⟩
  · rw [if_neg (Nat.not_le.mpr hh)] at hins
    exact ⟨st.slots, (Option.some.inj hins).symm, rfl, Or.inl ⟨rfl, Or.inr rfl⟩⟩
  · by_cases hc1 : p2.rc < p1.rc
    · rw [if_pos hc1] at hins
      dsimp only at hins
      rw [if_neg (by rw [List.length_set]; exact Nat.not_le.mpr hh)] at hins
      refine ⟨st.slots.set h2 none, (Option.some.inj hins).symm, by simp, Or.inr ?_⟩
      exact ⟨p1, p2, rfl, rfl, Or.inr ⟨rfl, Or.inl hc1⟩⟩
    · rw [if_neg hc1] at hins
      by_cases hc2 : p1.rc < p2.rc
      · rw [if_pos hc2] at hins
        dsimp only at hins
        rw [if_neg (by rw [List.length_set]; exact Nat.not_le.mpr hh)] at hins
        refine ⟨st.slots.set h1 none, (Option.some.inj hins).symm, by simp, Or.inr ?_⟩
        exact ⟨p1, p2, rfl, rfl, Or.inl ⟨rfl, Or.inl hc2⟩⟩
      · rw [if_neg hc2] at hins
        by_cases hc3 : p1.addr < p2.addr
        · rw [if_pos hc3] at hins
          dsimp only at hins
          rw [if_neg (by rw [List.length_set]; exact Nat.not_le.mpr hh)] at hins
          refine ⟨st.slots.set h1 none, (Option.some.inj hins).symm, by simp, Or.inr ?_⟩
          exact ⟨p1, p2, rfl, rfl, Or.inl ⟨rfl, Or.inr ⟨by omega, hc3⟩⟩⟩
        · rw [if_neg hc3] at hins
          dsimp only at hins
          rw [if_neg (by rw [List.length_set]; exact Nat.not_le.mpr hh)] at hins
          refine ⟨st.slots.set h2 none, (Option.some.inj hins).symm, by simp, Or.inr ?_⟩
          exact ⟨p1, p2, rfl, rfl, Or.inr ⟨rfl, Or.inr ⟨by omega, hc3⟩⟩⟩

/-- C4 (amended): `BlockCache::insert` is a no-op on a probe hit; on a
probe collision it installs the block at its hashed slot, overwriting the
colliding occupant, with no random eviction; on a probe miss it draws the
two random slots and, when both are occupied, evicts the occupant with the
smaller reference count (ties evicting the smaller address), then installs
the block at its hashed slot; slots other than the hashed and drawn ones
are never modified. -/
theorem c4_insert_cases (st : CacheSt) (b : CBlock) (h1 h2 : Nat) (st' : CacheSt)
    (hlen : st.slots.length = 2 ^ st.bits) (hbits : st.bits ≤ 64)
    (h1b : h1 < st.slots.length) (h2b : h2 < st.slots.length)
    (hins : insertC st b h1 h2 = some st') :
    (probeC st b.addr = 2 → st' = st) ∧
    (probeC st b.addr = 1 →
      st' = ⟨st.slots.set (cacheHash b.addr st.bits) (some b), st.bits⟩) ∧
    (probeC st b.addr = 0 →
      st'.slots.getD (cacheHash b.addr st.bits) none = some b) ∧
    (probeC st b.addr = 0 → ∀ j, j ≠ cacheHash b.addr st.bits → j ≠ h1 → j ≠ h2 →
      st'.slots.getD j none = st.slots.getD j none) ∧
    (probeC st b.addr = 0 → ∀ p1 p2, st.slots.getD h1 none = some p1 →
      st.slots.getD h2 none = some p2 → h1 ≠ cacheHash b.addr st.bits →
      (p1.rc < p2.rc ∨ (p1.rc = p2.rc ∧ p1.addr < p2.addr)) →
      st'.slots.getD h1 none = none) ∧
    (probeC st b.addr = 0 → ∀ p1 p2, st.slots.getD h1 none = some p1 →
      st.slots.getD h2 none = some p2 → h2 ≠ cacheHash b.addr st.bits →
      (p2.rc < p1.rc ∨ (p1.rc = p2.rc ∧ ¬p1.addr < p2.addr)) →
      st'.slots.getD h2 none = none) := by
  have hh : cacheHash b.addr st.bits < st.slots.length := by
    rw [hlen]
    exact cacheHash_lt b.addr st.bits hbits
  refine ⟨?_, ?_, ?_, ?_, ?_, ?_⟩
  · intro hp
    unfold insertC at hins
    rw [if_pos hp] at hins
    exact (Option.some.inj hins).symm
  · intro hp
    unfold insertC at hins
    rw [if_neg (by rw [hp]; decide), if_neg (by rw [hp]; decide)] at hins
    dsimp only at hins
    rw [if_neg (Nat.not_le.mpr hh)] at hins
    exact (Option.some.inj hins).symm
  · intro hp
    obtain ⟨sl1, rfl, hlen1, _⟩ := insertC_miss st b h1 h2 st' hh h1b h2b hp hins
    exact listGetD_set_self _ _ _ _ (by rw [hlen1]; exact hh)
  · intro hp j hj hj1 hj2
    obtain ⟨sl1, rfl, hlen1, hchar⟩ := insertC_miss st b h1 h2 st' hh h1b h2b hp hins
    show (sl1.set _ _).getD j none = _
    rw [listGetD_set_ne _ _ _ _ _ (fun hc => hj hc.symm)]
    rcases hchar with ⟨rfl, _⟩ | ⟨p1, p2, e1, e2, ⟨rfl, _⟩ | ⟨rfl, _⟩⟩
    · rfl
    · exact listGetD_set_ne _ _ _ _ _ (fun hc => hj1 hc.symm)
    · exact listGetD_set_ne _ _ _ _ _ (fun hc => hj2 hc.symm)
  · intro hp p1 p2 e1 e2 hne hcond
    obtain ⟨sl1, rfl, hlen1, hchar⟩ := insertC_miss st b h1 h2 st' hh h1b h2b hp hins
    show (sl1.set _ _).getD h1 none = none
    rw [listGetD_set_ne _ _ _ _ _ (fun hc => hne hc.symm)]
    rcases hchar with ⟨rfl, hnone⟩ | ⟨q1, q2, f1, f2, ⟨rfl, _⟩ | ⟨rfl, hcond2⟩⟩
    · rcases hnone with hn | hn
      · rw [e1] at hn
        cases hn
      · rw [e2] at hn
        cases hn
    · exact listGetD_set_self _ _ _ _ h1b
    · rw [e1] at f1
      rw [e2] at f2
      cases f1
      cases f2
      rcases hcond with hc | ⟨hceq, hca⟩ <;> rcases hcond2 with hc2 | ⟨hceq2, hca2⟩ <;> omega
  · intro hp p1 p2 e1 e2 hne hcond
    obtain ⟨sl1, rfl, hlen1, hchar⟩ := insertC_miss st b h1 h2 st' hh h1b h2b hp hins
    show (sl1.set _ _).getD h2 none = none
    rw [listGetD_set_ne _ _ _ _ _ (fun hc => hne hc.symm)]
    rcases hchar with ⟨rfl, hnone⟩ | ⟨q1, q2, f1, f2, ⟨rfl, hcond2⟩ | ⟨rfl, _⟩⟩
    · rcases hnone with hn | hn
      · rw [e1] at hn
        cases hn
      · rw [e2] at hn
        cases hn
    · rw [e1] at f1
      rw [e2] at f2
      cases f1
      cases f2
      rcases hcond with hc | ⟨hceq, hca⟩ <;> rcases hcond2 with hc2 | ⟨hceq2, hca2⟩ <;> omega
    · exact listGetD_set_self _ _ _ _ h2b

theorem c4_insert_cases_witness :
    (⟨[some ⟨5, 1⟩, none], 1⟩ : CacheSt).slots.getD (cacheHash 5 1) none = some ⟨5, 1⟩ :=
  (c4_insert_cases ⟨[none, none], 1⟩ ⟨5, 1⟩ 0 1 ⟨[some ⟨5, 1⟩, none], 1⟩
    (by decide) (by decide) (by decide) (by decide) (by decide)).2.2.1 (by decide)

theorem lor_mul_pow (k a c : Nat) (h : a < 2 ^ k) : a ||| c * 2 ^ k = a + c * 2 ^ k := by
  rw [Nat.lor_comm, Nat.mul_comm]
  rw [← Nat.mul_add_lt_is_or h c]
  omega

theorem xor_ones : ∀ k : Nat, ∀ a < 2 ^ k, a ^^^ (2 ^ k - 1) = 2 ^ k - 1 - a := by
  intro k
  induction k with
  | zero =>
    intro a ha
    have : a = 0 := by omega
    subst this
    decide
  | succ k ih =>
    intro a ha
    have h2 : (2 : Nat) ^ (k + 1) = 2 * 2 ^ k := by
      rw [Nat.pow_succ, Nat.mul_comm]
    have hdiv : (a ^^^ (2 ^ (k + 1) - 1)) / 2 = a / 2 ^^^ (2 ^ k - 1) := by
      rw [Nat.xor_div_two]
      congr 1
      omega
    have hmod : (a ^^^ (2 ^ (k + 1) - 1)) % 2 = 1 - a % 2 := by
      rw [Nat.xor_mod_two_eq]
      omega
    have hih := ih (a / 2) (by omega)
    have hsplit := Nat.div_add_mod (a ^^^ (2 ^ (k + 1) - 1)) 2
    rw [hdiv, hih] at hsplit
    omega

theorem b128putLoop_lt : ∀ (fuel v : Nat) (bs : List Nat),
    b128putLoop v fuel = some bs → v < M63 := by
  intro fuel
  induction fuel with
  | zero =>
    intro v bs h
    simp [b128putLoop] at h
  | succ fuel ih =>
    intro v bs h
    unfold b128putLoop at h
    by_cases hz : sar7 v ≠ 0
    · rw [if_pos hz] at h
      rcases hm : b128putLoop (sar7 v) fuel with _ | bs'
      · rw [hm] at h
        cases h
      · have hlt := ih (sar7 v) bs' hm
        by_contra hge
        unfold sar7 at hlt
        rw [if_neg hge] at hlt
        simp only [M63, W64] at hlt hge
        omega
    · push_neg at hz
      by_contra hge
      unfold sar7 at hz
      rw [if_neg hge] at hz
      simp only [M63, W64] at hz hge
      omega

theorem b128putLoop_get : ∀ (fuel v : Nat) (bs : List Nat),
    b128putLoop v fuel = some bs →
    ∀ (rest : List Nat) (acc cnt : Nat), acc < 2 ^ cnt → v * 2 ^ cnt < M63 →
    b128getLoop (bs ++ rest) acc cnt = some (acc + v * 2 ^ cnt, rest) := by
  intro fuel
  induction fuel with
  | zero =>
    intro v bs h
    simp [b128putLoop] at h
  | succ fuel ih =>
    intro v bs h rest acc cnt hacc hv
    have hvM : v < M63 := by
      have h1 : v ≤ v * 2 ^ cnt := Nat.le_mul_of_pos_right v (Nat.two_pow_pos cnt)
      omega
    have hsar : sar7 v = v / 128 := by
      unfold sar7
      rw [if_pos hvM]
    unfold b128putLoop at h
    rw [hsar] at h
    by_cases hz : v / 128 ≠ 0
    · rw [if_pos hz] at h
      rcases hm : b128putLoop (v / 128) fuel with _ | bs'
      · rw [hm] at h
        cases h
      · rw [hm] at h
        have hbs : bs = (v % 128 + 128) :: bs' := (Option.some.inj h).symm
        subst hbs
        show b128getLoop ((v % 128 + 128) :: (bs' ++ rest)) acc cnt = _
        unfold b128getLoop
        rw [if_neg (by omega)]
        have hb : (v % 128 + 128) % 128 = v % 128 := by omega
        rw [hb]
        have hsmall : v % 128 * 2 ^ cnt < M63 := by
          have h1 : v % 128 * 2 ^ cnt ≤ v * 2 ^ cnt :=
            Nat.mul_le_mul_right _ (Nat.mod_le v 128)
          omega
        have hmod : v % 128 * 2 ^ cnt % W64 = v % 128 * 2 ^ cnt := by
          apply Nat.mod_eq_of_lt
          simp only [M63, W64] at hsmall ⊢
          omega
        rw [hmod]
        rw [lor_mul_pow cnt acc (v % 128) hacc]
        have hpow : (2 : Nat) ^ (cnt + 7) = 2 ^ cnt * 128 := by
          rw [Nat.pow_add]
        have haccb : acc + v % 128 * 2 ^ cnt < 2 ^ (cnt + 7) := by
          have h127 : v % 128 ≤ 127 := by omega
          have hmul : v % 128 * 2 ^ cnt ≤ 127 * 2 ^ cnt :=
            Nat.mul_le_mul_right _ h127
          rw [hpow]
          omega
        have hvb : v / 128 * 2 ^ (cnt + 7) < M63 := by
          have h1 : v / 128 * 2 ^ (cnt + 7) = v / 128 * 128 * 2 ^ cnt := by
            rw [hpow]
            ring
          have h2 : v / 128 * 128 ≤ v := Nat.div_mul_le_self v 128
          have h3 : v / 128 * 128 * 2 ^ cnt ≤ v * 2 ^ cnt :=
            Nat.mul_le_mul_right _ h2
          omega
        have hrec := ih (v / 128) bs' hm rest (acc + v % 128 * 2 ^ cnt) (cnt + 7) haccb hvb
        rw [hrec]
        congr 2
        have hvd : v % 128 + 128 * (v / 128) = v := by omega
        calc acc + v % 128 * 2 ^ cnt + v / 128 * 2 ^ (cnt + 7)
            = acc + (v % 128 + 128 * (v / 128)) * 2 ^ cnt := by
              rw [hpow]
              ring
          _ = acc + v * 2 ^ cnt := by rw [hvd]
    · rw [if_neg hz] at h
      push_neg at hz
      have hv128 : v < 128 := by omega
      have hbs : bs = [v % 128] := (Option.some.inj h).symm
      subst hbs
      show b128getLoop (v % 128 :: rest) acc cnt = _
      unfold b128getLoop
      rw [if_pos (by omega)]
      have hb : (v % 128) % 128 = v % 128 := by omega
      rw [hb]
      have hveq : v % 128 = v := by omega
      rw [hveq]
      have hmod : v * 2 ^ cnt % W64 = v * 2 ^ cnt := by
        apply Nat.mod_eq_of_lt
        simp only [M63, W64] at hv ⊢
        omega
      rw [hmod]
      rw [lor_mul_pow cnt acc v hacc]

theorem b128put_get (fuel v : Nat) (bs rest : List Nat)
    (h : b128putLoop v fuel = some bs) :
    b128get (bs ++ rest) = some (v, rest) := by
  have hv := b128putLoop_lt fuel v bs h
  have hget := b128putLoop_get fuel v bs h rest 0 0 (by norm_num) (by simpa using hv)
  simpa [b128get] using hget

theorem zigzag_inv (v : Nat) (hv : v < W64) (hz : zigzag64 v < M63) :
    unzigzag64 (zigzag64 v) = v := by
  have hW : W64 = 2 ^ 64 := rfl
  have hM : M63 = 2 ^ 63 := rfl
  by_cases hneg : v < M63
  · have hzz : zigzag64 v = 2 * v := by
      unfold zigzag64
      rw [if_pos hneg, Nat.xor_zero]
      apply Nat.mod_eq_of_lt
      simp only [M63, W64] at hneg ⊢
      omega
    rw [hzz] at hz ⊢
    unfold unzigzag64 sar1
    rw [if_neg (show ¬2 * v % 2 = 1 by omega), Nat.xor_zero, if_pos hz]
    omega
  · have h2v : 2 * v % W64 = 2 * v - W64 := by
      simp only [M63, W64] at hneg hv ⊢
      omega
    have hsub : 2 * v - W64 < 2 ^ 64 := by
      simp only [W64] at hv ⊢
      omega
    have hzz : zigzag64 v = W64 - 1 - (2 * v - W64) := by
      unfold zigzag64
      rw [if_neg hneg, h2v, hW]
      exact xor_ones 64 _ hsub
    have hzv : zigzag64 v = 2 * (W64 - 1 - v) + 1 := by
      rw [hzz]
      simp only [M63, W64] at hneg hv ⊢
      omega
    rw [hzv] at hz ⊢
    unfold unzigzag64 sar1
    rw [if_pos (show (2 * (W64 - 1 - v) + 1) % 2 = 1 by omega), if_pos hz]
    have hdiv : (2 * (W64 - 1 - v) + 1) / 2 = W64 - 1 - v := by omega
    rw [hdiv, hW]
    rw [xor_ones 64 _ (by simp only [W64] at hneg hv ⊢; omega)]
    simp only [M63, W64] at hneg hv ⊢
    omega

theorem dzrPuts_eq_rlePuts : ∀ (xs : List Nat) (p : Nat) (st : RSt),
    dzrPuts xs p st = rlePuts (zdList p xs) st := by
  intro xs
  induction xs with
  | nil => intro p st; rfl
  | cons x xs ih =>
    intro p st
    show (match rlePut (zigzag64 ((x + W64 - p) % W64)) st with
          | none => none
          | some st' => dzrPuts xs x st') = _
    unfold zdList rlePuts
    cases rlePut (zigzag64 ((x + W64 - p) % W64)) st with
    | none => rfl
    | some st' => exact ih x st'

theorem ssPut_some (v : Nat) (out : List Nat) (sp : Nat) (x : List Nat × Nat)
    (h : ssPut v out sp = some x) :
    ∃ bs, b128putLoop v sp = some bs ∧ x = (out ++ bs, sp - bs.length) := by
  unfold ssPut at h
  cases hm : b128putLoop v sp <;> rw [hm] at h
  · cases h
  · exact ⟨_, rfl, (Option.some.inj h).symm⟩

theorem rlePuts_commit_eq : ∀ (zs : List Nat) (st : RSt),
    Option.bind (rlePuts zs st) rleCommit =
      encodePairs (runsFrom st.rPrev st.reps zs) st.out st.space := by
  intro zs
  induction zs with
  | nil =>
    intro st
    show rleCommit st = encodePairs [(st.reps, st.rPrev)] st.out st.space
    unfold rleCommit encodePairs
    cases ssPut st.reps st.out st.space with
    | none => rfl
    | some p1 =>
      obtain ⟨o1, s1⟩ := p1
      dsimp only
      cases ssPut st.rPrev o1 s1 with
      | none => rfl
      | some p2 =>
        obtain ⟨o2, s2⟩ := p2
        rfl
  | cons z zs ih =>
    intro st
    have hstep : ∀ o : Option RSt,
        Option.bind (match o with
          | none => none
          | some st' => rlePuts zs st') rleCommit =
        Option.bind o (fun st' => Option.bind (rlePuts zs st') rleCommit) := by
      intro o
      cases o <;> rfl
    show Option.bind
        (match rlePut z st with
         | none => none
         | some st' => rlePuts zs st') rleCommit = _
    rw [hstep]
    unfold runsFrom rlePut
    by_cases hzp : z = st.rPrev
    · rw [if_neg (fun hc => hc hzp), if_pos hzp]
      exact ih ⟨st.rPrev, (st.reps + 1) % W64, st.out, st.space⟩
    · rw [if_pos hzp, if_neg hzp]
      by_cases hr : st.reps ≠ 0
      · rw [if_pos hr, if_pos hr]
        unfold encodePairs
        cases ssPut st.reps st.out st.space with
        | none => rfl
        | some p1 =>
          obtain ⟨o1, s1⟩ := p1
          dsimp only
          cases ssPut st.rPrev o1 s1 with
          | none => rfl
          | some p2 =>
            obtain ⟨o2, s2⟩ := p2
            dsimp only
            exact ih ⟨z, 1, o2, s2⟩
      · rw [if_neg hr, if_neg hr]
        exact ih ⟨z, 1, st.out, st.space⟩

theorem encodePairs_out : ∀ (ps : List (Nat × Nat)) (out : List Nat) (sp : Nat),
    encodePairs ps out sp = Option.map (fun t => out ++ t) (encodePairs ps [] sp) := by
  intro ps
  induction ps with
  | nil =>
    intro out sp
    simp [encodePairs]
  | cons cv ps ih =>
    intro out sp
    obtain ⟨c, v⟩ := cv
    unfold encodePairs ssPut
    cases h1 : b128putLoop c sp with
    | none => rfl
    | some bs1 =>
      dsimp only
      cases h2 : b128putLoop v (sp - bs1.length) with
      | none => rfl
      | some bs2 =>
        dsimp only
        rw [ih (out ++ bs1 ++ bs2) _, ih (([] : List Nat) ++ bs1 ++ bs2) _]
        cases encodePairs ps [] ((sp - bs1.length) - bs2.length) with
        | none => rfl
        | some t =>
          dsimp only [Option.map]
          rw [List.nil_append]
          simp [List.append_assoc]

theorem encodePairs_lt : ∀ (ps : List (Nat × Nat)) (out : List Nat) (sp : Nat)
    (tail : List Nat), encodePairs ps out sp = some tail →
    ∀ pr ∈ ps, pr.1 < M63 ∧ pr.2 < M63 := by
  intro ps
  induction ps with
  | nil =>
    intro out sp tail h pr hpr
    cases hpr
  | cons cv ps ih =>
    intro out sp tail h pr hpr
    obtain ⟨c, v⟩ := cv
    unfold encodePairs at h
    cases h1 : ssPut c out sp <;> rw [h1] at h
    · cases h
    · rename_i x1
      obtain ⟨o1, s1⟩ := x1
      dsimp only at h
      cases h2 : ssPut v o1 s1 <;> rw [h2] at h
      · cases h
      · rename_i x2
        obtain ⟨o2, s2⟩ := x2
        dsimp only at h
        rcases List.mem_cons.mp hpr with hpr1 | hpr1
        · subst hpr1
          obtain ⟨bs1, hput1, _⟩ := ssPut_some _ _ _ _ h1
          obtain ⟨bs2, hput2, _⟩ := ssPut_some _ _ _ _ h2
          exact ⟨b128putLoop_lt _ _ _ hput1, b128putLoop_lt _ _ _ hput2⟩
        · exact ih o2 s2 tail h pr hpr1

theorem zdList_length : ∀ (xs : List Nat) (p : Nat), (zdList p xs).length = xs.length := by
  intro xs
  induction xs with
  | nil => intro p; rfl
  | cons x xs ih =>
    intro p
    show (zigzag64 ((x + W64 - p) % W64) :: zdList x xs).length = _
    simp [ih]

theorem runsFrom_expand : ∀ (zs : List Nat) (p r : Nat), r + zs.length < W64 →
    expandPairs (runsFrom p r zs) = List.replicate r p ++ zs := by
  intro zs
  induction zs with
  | nil =>
    intro p r h
    show expandPairs [(r, p)] = _
    simp [expandPairs]
  | cons z zs ih =>
    intro p r h
    rw [List.length_cons] at h
    unfold runsFrom
    by_cases hz : z = p
    · rw [if_pos hz]
      rw [Nat.mod_eq_of_lt (show r + 1 < W64 by omega)]
      rw [ih p (r + 1) (by omega)]
      subst hz
      rw [List.replicate_succ']
      simp
    · rw [if_neg hz]
      by_cases hr : r ≠ 0
      · rw [if_pos hr]
        unfold expandPairs
        rw [ih z 1 (by omega)]
        simp
      · rw [if_neg hr]
        push_neg at hr
        rw [ih z 1 (by omega)]
        subst hr
        simp

theorem runsFrom_pos : ∀ (zs : List Nat) (p r : Nat), r + zs.length < W64 →
    (1 ≤ r ∨ zs ≠ []) → ∀ pr ∈ runsFrom p r zs, 1 ≤ pr.1 := by
  intro zs
  induction zs with
  | nil =>
    intro p r h hne pr hpr
    rcases hne with hne | hne
    · show 1 ≤ pr.1
      have : pr = (r, p) := by simpa [runsFrom] using hpr
      subst this
      exact hne
    · exact absurd rfl hne
  | cons z zs ih =>
    intro p r h hne pr hpr
    rw [List.length_cons] at h
    unfold runsFrom at hpr
    by_cases hz : z = p
    · rw [if_pos hz] at hpr
      rw [Nat.mod_eq_of_lt (show r + 1 < W64 by omega)] at hpr
      exact ih p (r + 1) (by omega) (Or.inl (by omega)) pr hpr
    · rw [if_neg hz] at hpr
      by_cases hr : r ≠ 0
      · rw [if_pos hr] at hpr
        rcases List.mem_cons.mp hpr with hpr1 | hpr1
        · subst hpr1
          omega
        · exact ih z 1 (by omega) (Or.inl (by omega)) pr hpr1
      · rw [if_neg hr] at hpr
        exact ih z 1 (by omega) (Or.inl (by omega)) pr hpr

theorem expandPairs_mem : ∀ (ps : List (Nat × Nat)) (z : Nat), z ∈ expandPairs ps →
    ∃ pr ∈ ps, z = pr.2 := by
  intro ps
  induction ps with
  | nil =>
    intro z hz
    simp [expandPairs] at hz
  | cons cv ps ih =>
    intro z hz
    obtain ⟨c, v⟩ := cv
    unfold expandPairs at hz
    rcases List.mem_append.mp hz with hz1 | hz1
    · exact ⟨(c, v), List.mem_cons_self _ _, List.eq_of_mem_replicate hz1⟩
    · obtain ⟨pr, hpr, hez⟩ := ih z hz1
      exact ⟨pr, List.mem_cons_of_mem _ hpr, hez⟩

theorem rleNexts_reps_add : ∀ (k m : Nat) (X : List Nat) (v : Nat), k < W64 →
    rleNexts (k + m) ⟨X, v, k⟩ =
      Option.map (fun y => (List.replicate k v ++ y.1, y.2)) (rleNexts m ⟨X, v, 0⟩) := by
  intro k
  induction k with
  | zero =>
    intro m X v _
    rw [Nat.zero_add]
    cases rleNexts m ⟨X, v, 0⟩ with
    | none => rfl
    | some y => simp
  | succ k ih =>
    intro m X v hk
    rw [show k + 1 + m = (k + m) + 1 from by omega]
    show (match rleNext ⟨X, v, k + 1⟩ with
          | none => none
          | some (z, st') =>
            match rleNexts (k + m) st' with
            | none => none
            | some (zs, st'') => some (z :: zs, st'')) = _
    have hstep : rleNext ⟨X, v, k + 1⟩ = some (v, ⟨X, v, k⟩) := by
      unfold rleNext
      rw [if_neg (by simp)]
      have : (k + 1 + (W64 - 1)) % W64 = k := by
        simp only [W64] at hk ⊢
        omega
      rw [this]
    rw [hstep]
    dsimp only
    rw [ih m X v (by omega)]
    cases rleNexts m ⟨X, v, 0⟩ with
    | none => rfl
    | some y =>
      dsimp only [Option.map]
      rw [List.replicate_succ]
      rfl

theorem rleNexts_pair (c v m sp1 sp2 : Nat) (bs1 bs2 X : List Nat) (q : Nat)
    (h1 : b128putLoop c sp1 = some bs1) (h2 : b128putLoop v sp2 = some bs2)
    (hc1 : 1 ≤ c) (hcW : c < W64) :
    rleNexts (c + m) ⟨bs1 ++ bs2 ++ X, q, 0⟩ =
      Option.map (fun y => (List.replicate c v ++ y.1, y.2)) (rleNexts m ⟨X, v, 0⟩) := by
  obtain ⟨c', rfl⟩ : ∃ c', c = c' + 1 := ⟨c - 1, by omega⟩
  rw [show c' + 1 + m = (c' + m) + 1 from by omega]
  show (match rleNext ⟨bs1 ++ bs2 ++ X, q, 0⟩ with
        | none => none
        | some (z, st') =>
          match rleNexts (c' + m) st' with
          | none => none
          | some (zs, st'') => some (z :: zs, st'')) = _
  have hg1 : b128get (bs1 ++ (bs2 ++ X)) = some (c' + 1, bs2 ++ X) :=
    b128put_get sp1 (c' + 1) bs1 (bs2 ++ X) h1
  have hg2 : b128get (bs2 ++ X) = some (v, X) := b128put_get sp2 v bs2 X h2
  have hstep : rleNext ⟨bs1 ++ bs2 ++ X, q, 0⟩ = some (v, ⟨X, v, c'⟩) := by
    unfold rleNext
    rw [if_pos rfl]
    dsimp only
    rw [List.append_assoc, hg1]
    dsimp only
    rw [hg2]
    dsimp only
    have hdec : (c' + 1 + (W64 - 1)) % W64 = c' := by
      simp only [W64] at hcW ⊢
      omega
    rw [hdec]
  rw [hstep]
  dsimp only
  rw [rleNexts_reps_add c' m X v (by omega)]
  cases rleNexts m ⟨X, v, 0⟩ with
  | none => rfl
  | some y =>
    dsimp only [Option.map]
    rw [List.replicate_succ]
    rfl

theorem rleNexts_pairs : ∀ (ps : List (Nat × Nat)) (sp : Nat) (tail : List Nat),
    encodePairs ps [] sp = some tail →
    (∀ pr ∈ ps, 1 ≤ pr.1 ∧ pr.1 < M63) →
    ∀ (rest : List Nat) (q : Nat),
    ∃ q', rleNexts (expandPairs ps).length ⟨tail ++ rest, q, 0⟩ =
      some (expandPairs ps, ⟨rest, q', 0⟩) := by
  intro ps
  induction ps with
  | nil =>
    intro sp tail h hb rest q
    have htail : tail = [] := by
      simpa [encodePairs] using h.symm
    subst htail
    exact ⟨q, rfl⟩
  | cons cv ps ih =>
    intro sp tail h hb rest q
    obtain ⟨c, v⟩ := cv
    unfold encodePairs at h
    cases h1 : ssPut c [] sp <;> rw [h1] at h
    · cases h
    · rename_i x1
      obtain ⟨o1, s1⟩ := x1
      dsimp only at h
      cases h2 : ssPut v o1 s1 <;> rw [h2] at h
      · cases h
      · rename_i x2
        obtain ⟨o2, s2⟩ := x2
        dsimp only at h
        obtain ⟨bs1, hput1, hx1⟩ := ssPut_some _ _ _ _ h1
        obtain ⟨bs2, hput2, hx2⟩ := ssPut_some _ _ _ _ h2
        rw [Prod.mk.injEq] at hx1 hx2
        have ho1 : o1 = bs1 := by simpa using hx1.1
        have ho2 : o2 = bs1 ++ bs2 := by rw [hx2.1, ho1]
        rw [encodePairs_out] at h
        rcases hE : encodePairs ps [] s2 with _ | tail'
        · rw [hE] at h
          cases h
        · rw [hE] at h
          dsimp only [Option.map] at h
          have htail : tail = bs1 ++ (bs2 ++ tail') := by
            rw [← Option.some.inj h, ho2]
            simp [List.append_assoc]
          have hcb := hb (c, v) (List.mem_cons_self _ _)
          have hcW : c < W64 := by
            have hcM := hcb.2
            simp only [M63, W64] at hcM ⊢
            omega
          obtain ⟨q'', hih⟩ := ih s2 tail' hE
            (fun pr hpr => hb pr (List.mem_cons_of_mem _ hpr)) rest v
          refine ⟨q'', ?_⟩
          show rleNexts (expandPairs ((c, v) :: ps)).length ⟨tail ++ rest, q, 0⟩ = _
          unfold expandPairs
          rw [List.length_append, List.length_replicate]
          have hinp : tail ++ rest = bs1 ++ bs2 ++ (tail' ++ rest) := by
            rw [htail]
            simp [List.append_assoc]
          rw [hinp]
          rw [rleNexts_pair c v (expandPairs ps).length sp s1 bs1 bs2
            (tail' ++ rest) q hput1 hput2 hcb.1 hcW]
          rw [hih]
          rfl

theorem dzrNexts_eq : ∀ (n p : Nat) (st : DSt),
    dzrNexts n p st = Option.map (fun y => (zdInv p y.1, y.2)) (rleNexts n st) := by
  intro n
  induction n with
  | zero =>
    intro p st
    rfl
  | succ n ih =>
    intro p st
    unfold dzrNexts rleNexts
    cases rleNext st with
    | none => rfl
    | some y =>
      obtain ⟨z, st'⟩ := y
      dsimp only
      rw [ih ((p + unzigzag64 z) % W64) st']
      cases rleNexts n st' with
      | none => rfl
      | some y' =>
        obtain ⟨zs, st''⟩ := y'
        rfl

theorem zdInv_zdList : ∀ (xs : List Nat) (p : Nat), p < W64 →
    (∀ x ∈ xs, x < W64) → (∀ z ∈ zdList p xs, z < M63) →
    zdInv p (zdList p xs) = xs := by
  intro xs
  induction xs with
  | nil =>
    intro p _ _ _
    rfl
  | cons x xs ih =>
    intro p hp hx hz
    show zdInv p (zigzag64 ((x + W64 - p) % W64) :: zdList x xs) = x :: xs
    have hd : (x + W64 - p) % W64 < W64 := by
      apply Nat.mod_lt
      simp only [W64]
      omega
    have hzhead : zigzag64 ((x + W64 - p) % W64) < M63 :=
      hz _ (List.mem_cons_self _ _)
    have hinv := zigzag_inv _ hd hzhead
    have hxW : x < W64 := hx x (List.mem_cons_self _ _)
    show (p + unzigzag64 (zigzag64 ((x + W64 - p) % W64))) % W64 ::
        zdInv ((p + unzigzag64 (zigzag64 ((x + W64 - p) % W64))) % W64) (zdList x xs) = _
    rw [hinv]
    have hval : (p + (x + W64 - p) % W64) % W64 = x := by
      simp only [W64] at hp hxW ⊢
      omega
    rw [hval]
    rw [ih x hxW (fun y hy => hx y (List.mem_cons_of_mem _ hy))
      (fun z hzm => hz z (List.mem_cons_of_mem _ hzm))]

/-- C1 (amended): for every sequence of signed 64-bit integers (given as
two's-complement residues) of length below `2^64`, writing it through the
canonical pipeline Delta → ZigZag → RLE → Base128 (V1) followed by commit
and reading the same number of elements back through the inverse reader
pipeline yields exactly the original sequence, provided the buffer was
large enough that no write failed. -/
theorem c1_roundtrip (xs : List Nat) (sz : Nat) (bytes : List Nat)
    (hx : ∀ x ∈ xs, x < W64) (hlen : xs.length < W64)
    (henc : encodeC1 xs sz = some bytes) :
    decodeC1 bytes xs.length = some xs := by
  have henc' : encodePairs (runsFrom 0 0 (zdList 0 xs)) [] sz = some bytes := by
    have h1 : encodeC1 xs sz = Option.bind (dzrPuts xs 0 ⟨0, 0, [], sz⟩) rleCommit := by
      unfold encodeC1
      cases dzrPuts xs 0 ⟨0, 0, [], sz⟩ <;> rfl
    rw [h1, dzrPuts_eq_rlePuts, rlePuts_commit_eq] at henc
    exact henc
  have hzlen : (zdList 0 xs).length = xs.length := zdList_length xs 0
  have hexp : expandPairs (runsFrom 0 0 (zdList 0 xs)) = zdList 0 xs := by
    have h := runsFrom_expand (zdList 0 xs) 0 0 (by rw [hzlen]; omega)
    simpa using h
  have hbounds := encodePairs_lt (runsFrom 0 0 (zdList 0 xs)) [] sz bytes henc'
  have hzb : ∀ z ∈ zdList 0 xs, z < M63 := by
    intro z hzm
    rw [← hexp] at hzm
    obtain ⟨pr, hpr, rfl⟩ := expandPairs_mem _ z hzm
    exact (hbounds pr hpr).2
  rcases hne : xs with _ | ⟨x0, xs'⟩
  · show decodeC1 bytes 0 = some []
    rfl
  · rw [← hne]
    have hxsne : xs ≠ [] := by rw [hne]; simp
    have hzsne : zdList 0 xs ≠ [] := by
      rw [hne]
      show zigzag64 _ :: _ ≠ []
      simp
    have hpos := runsFrom_pos (zdList 0 xs) 0 0 (by rw [hzlen]; omega) (Or.inr hzsne)
    have hcv : ∀ pr ∈ runsFrom 0 0 (zdList 0 xs), 1 ≤ pr.1 ∧ pr.1 < M63 :=
      fun pr hpr => ⟨hpos pr hpr, (hbounds pr hpr).1⟩
    obtain ⟨q', hdec⟩ := rleNexts_pairs (runsFrom 0 0 (zdList 0 xs)) sz bytes henc' hcv [] 0
    rw [hexp, hzlen, List.append_nil] at hdec
    have hfinal : dzrNexts xs.length 0 ⟨bytes, 0, 0⟩ =
        some (xs, ⟨[], q', 0⟩) := by
      rw [dzrNexts_eq, hdec]
      dsimp only [Option.map]
      rw [zdInv_zdList xs 0 (by simp only [W64]; omega) hx hzb]
    unfold decodeC1
    rw [hfinal]

theorem c1_roundtrip_witness :
    decodeC1 [1, 20, 2, 2, 2, 0, 1, 2] 6 = some [10, 11, 12, 12, 12, 13] :=
  c1_roundtrip [10, 11, 12, 12, 12, 13] 32 [1, 20, 2, 2, 2, 0, 1, 2]
    (by decide) (by decide) (by decide)

theorem dzrPuts_replicate_one : ∀ (k r : Nat) (o : List Nat) (s : Nat), r < W64 →
    dzrPuts (List.replicate k 1) 1 ⟨0, r, o, s⟩ = some ⟨0, (r + k) % W64, o, s⟩ := by
  intro k
  induction k with
  | zero =>
    intro r o s hr
    show some _ = _
    rw [Nat.add_zero, Nat.mod_eq_of_lt hr]
  | succ k ih =>
    intro r o s hr
    rw [List.replicate_succ]
    show (match rlePut (zigzag64 ((1 + W64 - 1) % W64)) ⟨0, r, o, s⟩ with
          | none => none
          | some st' => dzrPuts (List.replicate k 1) 1 st') = _
    rw [show zigzag64 ((1 + W64 - 1) % W64) = 0 from by decide]
    rw [show rlePut 0 ⟨0, r, o, s⟩ = some ⟨0, (r + 1) % W64, o, s⟩ from by
      unfold rlePut
      rw [if_neg (show ¬(0 ≠ (⟨0, r, o, s⟩ : RSt).rPrev) from fun hc => hc rfl)]]
    dsimp only
    rw [ih ((r + 1) % W64) o s (Nat.mod_lt _ (by simp only [W64]; omega))]
    have hmm : ((r + 1) % W64 + k) % W64 = (r + (k + 1)) % W64 := by
      simp only [W64]
      omega
    rw [hmm]

theorem dzrNexts_empty (n p q : Nat) : dzrNexts (n + 1) p ⟨[], q, 0⟩ = none := by
  unfold dzrNexts
  have h : rleNext ⟨[], q, 0⟩ = none := by
    unfold rleNext
    rw [if_pos rfl]
    rfl
  rw [h]

theorem dzrPuts_cons_some (x : Nat) (l : List Nat) (p : Nat) (st st1 : RSt)
    (h : rlePut (zigzag64 ((x + W64 - p) % W64)) st = some st1) :
    dzrPuts (x :: l) p st = dzrPuts l x st1 := by
  conv_lhs => unfold dzrPuts
  rw [h]

theorem encodeC1_eq (xs : List Nat) (sz : Nat) (st : RSt)
    (h : dzrPuts xs 0 ⟨0, 0, [], sz⟩ = some st) :
    encodeC1 xs sz = rleCommit st := by
  unfold encodeC1
  rw [h]

theorem dzrNexts_step (n p : Nat) (st : DSt) (z : Nat) (st' : DSt)
    (h : rleNext st = some (z, st')) :
    dzrNexts (n + 1) p st =
      match dzrNexts n ((p + unzigzag64 z) % W64) st' with
      | none => none
      | some (vs, st'') => some ((p + unzigzag64 z) % W64 :: vs, st'') := by
  conv_lhs => unfold dzrNexts
  rw [h]

/-- C1 counterexample: for the sequence of `2^64 + 2` ones, every write
succeeds in an 8-byte buffer (the run-length counter of the RLE layer is a
64-bit `int64_t` and wraps back to 1), yet reading `2^64 + 2` elements
back fails: the emitted byte stream only describes two runs totalling two
elements, so the claim as stated — for *every* sequence of signed 64-bit
integers — is false. -/
theorem c1_counterexample :
    encodeC1 (List.replicate (2 ^ 64 + 2) 1) 8 = some [1, 2, 1, 0] ∧
    decodeC1 [1, 2, 1, 0] (List.replicate (2 ^ 64 + 2) 1).length = none := by
  constructor
  · have h1 : rlePut (zigzag64 ((1 + W64 - 0) % W64)) ⟨0, 0, [], 8⟩ =
        some ⟨2, 1, [], 8⟩ := by decide
    have h2 : rlePut (zigzag64 ((1 + W64 - 1) % W64)) ⟨2, 1, [], 8⟩ =
        some ⟨0, 1, [1, 2], 6⟩ := by decide
    have hrun : dzrPuts (List.replicate (2 ^ 64 + 2) 1) 0 ⟨0, 0, [], 8⟩ =
        some ⟨0, 1, [1, 2], 6⟩ := by
      rw [show (2 : Nat) ^ 64 + 2 = ((2 ^ 64) + 1) + 1 from by norm_num]
      rw [List.replicate_succ]
      rw [dzrPuts_cons_some 1 _ 0 _ _ h1]
      rw [List.replicate_succ]
      rw [dzrPuts_cons_some 1 _ 1 _ _ h2]
      rw [dzrPuts_replicate_one (2 ^ 64) 1 [1, 2] 6 (by simp only [W64]; omega)]
      rw [show ((1 + 2 ^ 64) % W64) = 1 from by simp only [W64]; omega]
    rw [encodeC1_eq _ _ _ hrun]
    decide
  · rw [List.length_replicate]
    have hs1 : rleNext ⟨[1, 2, 1, 0], 0, 0⟩ = some (2, ⟨[1, 0], 2, 0⟩) := by decide
    have hs2 : rleNext ⟨[1, 0], 2, 0⟩ = some (0, ⟨[], 0, 0⟩) := by decide
    have hrun : dzrNexts (2 ^ 64 + 2) 0 ⟨[1, 2, 1, 0], 0, 0⟩ = none := by
      rw [show (2 : Nat) ^ 64 + 2 = ((2 ^ 64) + 1) + 1 from by norm_num]
      rw [dzrNexts_step _ _ _ _ _ hs1]
      rw [show ((0 + unzigzag64 2) % W64) = 1 from by decide]
      rw [dzrNexts_step _ _ _ _ _ hs2]
      rw [show ((1 + unzigzag64 0) % W64) = 1 from by decide]
      rw [show (2 : Nat) ^ 64 = (2 ^ 64 - 1) + 1 from by norm_num]
      rw [dzrNexts_empty (2 ^ 64 - 1) 1 0]
    unfold decodeC1
    rw [hrun]
